import Mathlib

/-!
Verification of the query aggregation engine of the repository-discovery
scripts (GitHubSearch in firebase_repo_search.py / trae_repo_search.py /
windsurf_repo_search_excel.py).

The embedding models:
  * the repository record and the two aggregation scopes (the Python dicts
    `self.repos` and `self.current_search_repos`) as association lists;
  * `GitHubSearch._add_repository` as a pure state transformer;
  * `GitHubSearch._make_request` (pagination, rate-limit stall, 403 retry)
    as a fuel-indexed executable loop over a mocked response oracle that
    records a trace of issued requests and sleeps;
  * the issue-search per-item URL parsing of `GitHubSearch.search_issues`;
  * the hardcoded time-window tables of `search_issues` and
    `search_repositories_by_description`.

Python dictionaries holding mutable record objects are modelled with value
semantics; this is observationally faithful because the only mutation the
source performs on a stored record is appending to its `found_by` string,
and whenever the two scopes alias the same record object they hold equal
values before and after each merge.
-/

set_option autoImplicit false

namespace RepoSearch

/-- Description field of a repository object in an API response item: the
JSON key may be absent, present with value null, or present with a string. -/
inductive DescField where
  | absent
  | null
  | str (s : String)
  deriving DecidableEq, Repr

/-- Fields of a repository object that `_add_repository` reads. -/
structure RawRepo where
  full_name : String
  html_url : String
  description : DescField
  deriving DecidableEq, Repr

/-- Argument shape of `_add_repository`: code-search items carry the
repository object nested under a key named repository; other items are the
repository object itself.  This mirrors the branch on line 88 of
firebase_repo_search.py. -/
inductive RepoData where
  | wrapped (repository : RawRepo)
  | plain (repo : RawRepo)
  deriving DecidableEq, Repr

/-- The repository object selected by the branch at the top of
`_add_repository`. -/
def repoOf : RepoData → RawRepo
  | .wrapped r => r
  | .plain r => r

/-- Result of the Python expression `repo.get('description', 'No description')`:
the default fires only when the key is absent; a present null is kept as
`none` (Python `None`). -/
def getDesc : DescField → Option String
  | .absent => some "No description"
  | .null => none
  | .str s => some s

/-- The value stored per identity key in the scopes: the `repo_info` dict of
`_add_repository` (url, description, found_by). -/
structure RepoInfo where
  url : String
  description : Option String
  found_by : String
  deriving DecidableEq, Repr

/-- An aggregation scope (a Python dict from full_name to repo_info). -/
abbrev Scope := List (String × RepoInfo)

/-- Dictionary lookup (first matching key). -/
def scopeFind : Scope → String → Option RepoInfo
  | [], _ => none
  | (k, v) :: rest, key => if k = key then some v else scopeFind rest key

/-- Dictionary update of the value stored at a key. -/
def updateScope : Scope → String → RepoInfo → Scope
  | [], _, _ => []
  | (k, v) :: rest, key, nv =>
    if k = key then (k, nv) :: updateScope rest key nv
    else (k, v) :: updateScope rest key nv

/-- Boolean test that `needle` is a prefix of `hay` (over character lists). -/
def isPrefixChars : List Char → List Char → Bool
  | [], _ => true
  | _ :: _, [] => false
  | a :: as, b :: bs => a = b && isPrefixChars as bs

/-- Boolean substring test over character lists, the semantics of the Python
expression `needle in hay` on strings. -/
def containsChars (needle : List Char) : List Char → Bool
  | [] => needle.isEmpty
  | c :: rest => isPrefixChars needle (c :: rest) || containsChars needle rest

/-- Python substring test `needle in hay` on strings. -/
def strContains (hay needle : String) : Bool :=
  containsChars needle.data hay.data

/-- Merge of one record into one scope: the body of the two symmetric
blocks of `_add_repository` (lines 102-115 of firebase_repo_search.py).
Absent key: insert the fresh record.  Present key: append the tag to the
joined `found_by` string unless it is already contained as a substring; the
url and description fields of the stored record are not touched. -/
def mergeScope (sc : Scope) (name : String) (info : RepoInfo) (found_by : String) : Scope :=
  match scopeFind sc name with
  | none => (name, info) :: sc
  | some old =>
    if strContains old.found_by found_by then sc
    else updateScope sc name { old with found_by := old.found_by ++ ", " ++ found_by }

/-- The two scopes held by a `GitHubSearch` object. -/
@[ext]
structure SearchState where
  repos : Scope
  current_search_repos : Scope
  deriving DecidableEq, Repr

/-- The state transformer of `GitHubSearch._add_repository`. -/
def addRepository (st : SearchState) (repo_data : RepoData) (found_by : String)
    (is_current_search : Bool) : SearchState :=
  let repo := repoOf repo_data
  let repo_info : RepoInfo :=
    { url := repo.html_url, description := getDesc repo.description, found_by := found_by }
  let cur :=
    if is_current_search then
      mergeScope st.current_search_repos repo.full_name repo_info found_by
    else st.current_search_repos
  let gl := mergeScope st.repos repo.full_name repo_info found_by
  { repos := gl, current_search_repos := cur }

/-- One observable event of a run: a merge through `_add_repository`, or a
clear of the batch scope (`searcher.current_search_repos.clear()` in main). -/
inductive RunEvent where
  | merge (repo_data : RepoData) (found_by : String) (is_current_search : Bool)
  | clearBatch
  deriving DecidableEq, Repr

/-- Effect of one run event on the search state. -/
def stepEvent (st : SearchState) : RunEvent → SearchState
  | .merge rd fb b => addRepository st rd fb b
  | .clearBatch => { st with current_search_repos := [] }

/-- State reached after a sequence of run events, starting from the empty
scopes created in `GitHubSearch.__init__`. -/
def runEvents (evs : List RunEvent) : SearchState :=
  evs.foldl stepEvent ⟨[], []⟩

/-- A merge operation: the argument triple of one `_add_repository` call. -/
abbrev MergeOp := RepoData × String × Bool

/-- Apply a sequence of `_add_repository` calls to a state. -/
def runMerges (st : SearchState) (ops : List MergeOp) : SearchState :=
  ops.foldl (fun s o => addRepository s o.1 o.2.1 o.2.2) st

/-- The provenance tags of a sequence of merge operations. -/
def opTags (ops : List MergeOp) : List String :=
  ops.map (fun o => o.2.1)

/-- Substring occurrence as a proposition. -/
def InfixOf (t l : List Char) : Prop := ∃ p s, p ++ t ++ s = l

/-- Splitter used to read a joined `found_by` string back as the provenance
set it renders: it cuts at every occurrence of the separator used by
`_add_repository`. -/
def splitTagsAux : List Char → List Char → List (List Char)
  | [], acc => [acc.reverse]
  | [c], acc => [(c :: acc).reverse]
  | c :: c2 :: rest, acc =>
    if c = ',' ∧ c2 = ' ' then acc.reverse :: splitTagsAux rest []
    else splitTagsAux (c2 :: rest) (c :: acc)

/-- Whether a character list contains the tag separator. -/
def hasSep : List Char → Bool
  | [] => false
  | [_] => false
  | c :: c2 :: rest => (c = ',' && c2 = ' ') || hasSep (c2 :: rest)

/-- The provenance set rendered by a joined `found_by` string, as the list of
components between separators. -/
def provTags (s : String) : List String :=
  (splitTagsAux s.data []).map String.mk

/-- The joined rendering of a list of provenance tags, in the shape
`_add_repository` builds by appending. -/
def joinTags : List String → String
  | [] => ""
  | [t] => t
  | t :: ts => t ++ ", " ++ joinTags ts

/-- A benign provenance tag: nonempty, contains no comma, and does not start
with a space.  All tags the driver scripts build have this shape. -/
@[reducible]
def CleanChars (l : List Char) : Prop :=
  l ≠ [] ∧ ',' ∉ l ∧ l.head? ≠ some ' '

/-- The provenance tags of the merge events of a run. -/
def evTags (evs : List RunEvent) : List String :=
  evs.filterMap (fun e =>
    match e with
    | .merge _ fb _ => some fb
    | .clearBatch => none)

/-- A stored record whose joined found_by string renders the nonempty tag
list S drawn from the tag universe U. -/
def ReprWith (U : String → Prop) (i : RepoInfo) (S : List String) : Prop :=
  S ≠ [] ∧ (∀ s ∈ S, U s) ∧ i.found_by = joinTags S

/-- Run invariant: every global record renders a nonempty tag list over U,
and every batch record renders a tag list contained in the tag list of the
corresponding global record (which in particular exists). -/
def StateInv (U : String → Prop) (st : SearchState) : Prop :=
  (∀ k i, scopeFind st.repos k = some i → ∃ S, ReprWith U i S) ∧
  (∀ k i, scopeFind st.current_search_repos k = some i →
    ∃ S i' S', ReprWith U i S ∧ scopeFind st.repos k = some i' ∧ ReprWith U i' S' ∧
      ∀ t, t ∈ S → t ∈ S')

/-- A mocked HTTP response for one request of `_make_request`: a success
carrying the rate-limit headers, reported total and items; a 403 error
carrying a reset header; another HTTP error; or a transport error. -/
inductive MockResp (α : Type) where
  | ok (remaining reset : Int) (total_count : Nat) (items : List α)
  | err403 (reset : Int)
  | errOther (code : Nat)
  | netErr

/-- An observable action of `_make_request`: issuing the request for a page,
or sleeping for a number of seconds. -/
inductive ExecEvent where
  | req (page : Nat)
  | sleep (duration : Int)
  deriving DecidableEq, Repr

/-- Outcome of a `_make_request` run: the trace of actions, the accumulated
items, the reported total count, and whether the loop exited on its own
(rather than the fuel running out). -/
structure ExecResult (α : Type) where
  trace : List ExecEvent
  items : List α
  total : Nat
  finished : Bool

/-- The loop of `_make_request` over a response oracle.  The oracle maps
(attempt index, page number) to the response together with the value of
`int(time.time())` observed while handling it.  On a success whose
remaining-quota header is at most 1, `_check_rate_limit` sleeps
`max(reset - now, 0) + 10` seconds and the iteration restarts without
consuming the page data; on a 403 the same wait is computed from the error
response's headers and the loop continues with the same page; on any other
HTTP error or a transport error the loop breaks with the partial
accumulation.  Otherwise the page's items are appended, the loop breaks once
the accumulation reaches `min(total_count, max_results)`, and a 1 second
delay precedes the next page. -/
def makeRequestAux {α : Type} (oracle : Nat → Nat → MockResp α × Int) (maxResults : Nat) :
    Nat → Nat → Nat → List α → Nat → ExecResult α
  | 0, _, _, acc, total => ⟨[], acc, total, false⟩
  | fuel + 1, attempt, page, acc, total =>
    let (resp, now) := oracle attempt page
    match resp with
    | .ok remaining reset total_count items =>
      if remaining ≤ 1 then
        let w := max (reset - now) 0 + 10
        let r := makeRequestAux oracle maxResults fuel (attempt + 1) page acc total
        ⟨.req page :: .sleep w :: r.trace, r.items, r.total, r.finished⟩
      else
        let total := if page = 1 then total_count else total
        if items.isEmpty then ⟨[.req page], acc, total, true⟩
        else
          let acc := acc ++ items
          if min total maxResults ≤ acc.length then ⟨[.req page], acc, total, true⟩
          else
            let r := makeRequestAux oracle maxResults fuel (attempt + 1) (page + 1) acc total
            ⟨.req page :: .sleep 1 :: r.trace, r.items, r.total, r.finished⟩
    | .err403 reset =>
      let w := max (reset - now) 0 + 10
      let r := makeRequestAux oracle maxResults fuel (attempt + 1) page acc total
      ⟨.req page :: .sleep w :: r.trace, r.items, r.total, r.finished⟩
    | .errOther _ => ⟨[.req page], acc, total, true⟩
    | .netErr => ⟨[.req page], acc, total, true⟩

/-- Entry point of the `_make_request` model: page counter starts at 1,
accumulator empty, total 0. -/
def makeRequest {α : Type} (oracle : Nat → Nat → MockResp α × Int) (maxResults fuel : Nat) :
    ExecResult α :=
  makeRequestAux oracle maxResults fuel 1 1 [] 0

/-- Number of requests issued in a trace. -/
def countReq (tr : List ExecEvent) : Nat :=
  tr.countP (fun e => match e with | .req _ => true | _ => false)

/-- Concatenation of pages `start, start+1, ...` (`count` of them) in fetch
order. -/
def pagesCat {α : Type} (pages : Nat → List α) : Nat → Nat → List α
  | _, 0 => []
  | start, count + 1 => pages start ++ pagesCat pages (start + 1) count

/-- Split a character list at every occurrence of a separator character, the
semantics of Python str.split with a one-character separator. -/
def splitOnCharAux (sep : Char) : List Char → List Char → List (List Char)
  | [], acc => [acc.reverse]
  | c :: rest, acc =>
    if c = sep then acc.reverse :: splitOnCharAux sep rest []
    else splitOnCharAux sep rest (c :: acc)

/-- Python `s.split('/')`. -/
def splitSlash (s : String) : List String :=
  (splitOnCharAux '/' s.data []).map String.mk

/-- Per-item body of the loop in `GitHubSearch.search_issues` (lines 216-233
of firebase_repo_search.py): split the repository-API URL on slashes; with at
least 5 parts, take the last two as owner and name, synthesize the canonical
URL and merge; otherwise print a warning and skip the item. -/
def processIssueItem (st : SearchState) (repo_url : String) (found_by : String)
    (is_current_search : Bool) : SearchState :=
  let parts := splitSlash repo_url
  if 5 ≤ parts.length then
    let owner := parts.getD (parts.length - 2) ""
    let repo_name := parts.getD (parts.length - 1) ""
    let repo_info : RawRepo :=
      { full_name := owner ++ "/" ++ repo_name
        html_url := "https://github.com/" ++ owner ++ "/" ++ repo_name
        description := .str "" }
    addRepository st (.plain repo_info) found_by is_current_search
  else st

/-- Parse a decimal digit. -/
def digitVal (c : Char) : Option Nat :=
  if '0' ≤ c ∧ c ≤ '9' then some (c.toNat - '0'.toNat) else none

/-- Parse a nonempty all-digit character list as a decimal number. -/
def parseNatAux : List Char → Nat → Option Nat
  | [], n => some n
  | c :: rest, n =>
    match digitVal c with
    | none => none
    | some d => parseNatAux rest (n * 10 + d)

/-- Parse a nonempty all-digit character list as a decimal number. -/
def parseNat (l : List Char) : Option Nat :=
  if l.isEmpty then none else parseNatAux l 0

/-- A calendar date as (year, month, day). -/
abbrev Date := Nat × Nat × Nat

/-- Parse a date literal of the shape YYYY-MM-DD. -/
def parseDate (s : String) : Option Date :=
  match splitOnCharAux '-' s.data [] with
  | [ys, ms, ds] =>
    match parseNat ys, parseNat ms, parseNat ds with
    | some y, some m, some d => some (y, m, d)
    | _, _, _ => none
  | _ => none

/-- Gregorian leap year rule. -/
def isLeap (y : Nat) : Bool :=
  y % 4 = 0 && (y % 100 ≠ 0 || y % 400 = 0)

/-- Number of days of a month. -/
def daysInMonth (y m : Nat) : Nat :=
  if m = 2 then (if isLeap y then 29 else 28)
  else if m = 4 ∨ m = 6 ∨ m = 9 ∨ m = 11 then 30
  else 31

/-- A valid calendar date. -/
@[reducible]
def validDate (dt : Date) : Prop :=
  1 ≤ dt.2.1 ∧ dt.2.1 ≤ 12 ∧ 1 ≤ dt.2.2 ∧ dt.2.2 ≤ daysInMonth dt.1 dt.2.1

/-- The calendar day after a date. -/
def nextDay (dt : Date) : Date :=
  if dt.2.2 < daysInMonth dt.1 dt.2.1 then (dt.1, dt.2.1, dt.2.2 + 1)
  else if dt.2.1 < 12 then (dt.1, dt.2.1 + 1, 1)
  else (dt.1 + 1, 1, 1)

/-- Strict chronological order on dates. -/
@[reducible]
def dateLt (a b : Date) : Prop :=
  a.1 < b.1 ∨ (a.1 = b.1 ∧ (a.2.1 < b.2.1 ∨ (a.2.1 = b.2.1 ∧ a.2.2 < b.2.2)))

/-- Chronological order on dates, inclusive. -/
@[reducible]
def dateLe (a b : Date) : Prop := dateLt a b ∨ a = b

/-- Adjacency check: the day after each window's end is the next window's
start. -/
def windowsAdjacent : List (Date × Date) → Bool
  | [] => true
  | [_] => true
  | a :: b :: rest => decide (nextDay a.2 = b.1) && windowsAdjacent (b :: rest)

/-- Pairwise disjointness check: every window ends strictly before every
later window starts. -/
def datePairwiseLt : List (Date × Date) → Bool
  | [] => true
  | p :: rest => rest.all (fun q => decide (dateLt p.2 q.1)) && datePairwiseLt rest

/-- Parse a list of (start, end) date-string pairs. -/
def parsedWindows (l : List (String × String)) : Option (List (Date × Date)) :=
  l.mapM (fun p =>
    match parseDate p.1, parseDate p.2 with
    | some a, some b => some (a, b)
    | _, _ => none)

/-- The hardcoded time_ranges table of `GitHubSearch.search_issues` (lines
178-203 of firebase_repo_search.py); `search_repositories_by_description` in
the same file repeats the identical table. -/
def issueTimeRanges : List (String × String) :=
  [ ("2023-07-01", "2023-07-31"),
    ("2023-08-01", "2023-08-31"),
    ("2023-09-01", "2023-09-30"),
    ("2023-10-01", "2023-10-31"),
    ("2023-11-01", "2023-11-30"),
    ("2023-12-01", "2023-12-31"),
    ("2024-01-01", "2024-01-31"),
    ("2024-02-01", "2024-02-29"),
    ("2024-03-01", "2024-03-31"),
    ("2024-04-01", "2024-04-30"),
    ("2024-05-01", "2024-05-31"),
    ("2024-06-01", "2024-06-30"),
    ("2024-07-01", "2024-07-31"),
    ("2024-08-01", "2024-08-31"),
    ("2024-09-01", "2024-09-30"),
    ("2024-10-01", "2024-10-31"),
    ("2024-11-01", "2024-11-30"),
    ("2024-12-01", "2024-12-31"),
    ("2025-01-01", "2025-01-31"),
    ("2025-02-01", "2025-02-28"),
    ("2025-03-01", "2025-03-15"),
    ("2025-03-16", "2025-03-31"),
    ("2025-04-01", "2025-04-15"),
    ("2025-04-16", "2025-04-30") ]

/-- The hardcoded time_ranges table of
`GitHubSearch.search_repositories_by_description` in
windsurf_repo_search_excel.py (lines 134-143). -/
def windsurfDescTimeRanges : List (String × String) :=
  [ ("2024-11-01", "2024-11-30"),
    ("2024-12-01", "2024-12-31"),
    ("2025-01-01", "2025-01-31"),
    ("2025-02-01", "2025-02-28"),
    ("2025-03-01", "2025-03-15"),
    ("2025-03-16", "2025-03-31"),
    ("2025-04-01", "2025-04-15"),
    ("2025-04-16", "2025-04-30") ]

/-- Well-formedness of a parsed window table: every window is a valid closed
interval, consecutive windows are chronologically ordered and exactly
adjacent (the day after one end is the next start), so that the
concatenation of the windows reconstructs the overall range with no gaps and
no overlaps. -/
@[reducible]
def WindowsOk (w : List (Date × Date)) : Prop :=
  (∀ p ∈ w, validDate p.1 ∧ validDate p.2 ∧ dateLe p.1 p.2) ∧
  windowsAdjacent w = true ∧
  datePairwiseLt w = true

theorem str_data_append (a b : String) : (a ++ b).data = a.data ++ b.data := by
  cases a; cases b; rfl

theorem str_mk_data (s : String) : String.mk s.data = s := rfl

theorem isPrefixChars_iff (t l : List Char) :
    isPrefixChars t l = true ↔ ∃ s, t ++ s = l := by
  induction t generalizing l with
  | nil => simp [isPrefixChars]
  | cons a as ih =>
    cases l with
    | nil => simp [isPrefixChars]
    | cons b bs =>
      simp only [isPrefixChars, Bool.and_eq_true, decide_eq_true_eq, ih]
      constructor
      · rintro ⟨rfl, s, rfl⟩
        exact ⟨s, rfl⟩
      · rintro ⟨s, hs⟩
        injection hs with h1 h2
        exact ⟨h1, s, h2⟩

theorem containsChars_iff (t l : List Char) :
    containsChars t l = true ↔ InfixOf t l := by
  induction l with
  | nil =>
    simp only [containsChars, List.isEmpty_iff, InfixOf]
    constructor
    · rintro rfl; exact ⟨[], [], rfl⟩
    · rintro ⟨p, s, h⟩
      rcases List.append_eq_nil.mp h with ⟨h1, h2⟩
      rcases List.append_eq_nil.mp h1 with ⟨h3, h4⟩
      exact h4
  | cons c rest ih =>
    simp only [containsChars, Bool.or_eq_true, isPrefixChars_iff, ih, InfixOf]
    constructor
    · rintro (⟨s, hs⟩ | ⟨p, s, hs⟩)
      · exact ⟨[], s, hs⟩
      · exact ⟨c :: p, s, by simp [hs]⟩
    · rintro ⟨p, s, hs⟩
      cases p with
      | nil => exact Or.inl ⟨s, hs⟩
      | cons q p' =>
        injection hs with h1 h2
        exact Or.inr ⟨p', s, h2⟩

theorem strContains_iff (hay needle : String) :
    strContains hay needle = true ↔ InfixOf needle.data hay.data :=
  containsChars_iff needle.data hay.data

theorem infixRefl (t : List Char) : InfixOf t t := ⟨[], [], by simp⟩

theorem infixMono (t a p s : List Char) (h : InfixOf t a) : InfixOf t (p ++ a ++ s) := by
  obtain ⟨p', s', rfl⟩ := h
  exact ⟨p ++ p', s' ++ s, by simp⟩

theorem prefixAvoid (t a b : List Char) (c : Char) (hne : c ∉ t)
    (h : ∃ s, t ++ s = a ++ c :: b) : ∃ s, t ++ s = a := by
  induction t generalizing a with
  | nil => exact ⟨a, rfl⟩
  | cons u t' ih =>
    obtain ⟨s, hs⟩ := h
    cases a with
    | nil =>
      injection hs with h1 h2
      exact absurd (h1 ▸ List.mem_cons_self u t') hne
    | cons x a' =>
      injection hs with h1 h2
      obtain ⟨s', hs'⟩ := ih a' (fun hm => hne (List.mem_cons_of_mem u hm)) ⟨s, h2⟩
      exact ⟨s', by rw [h1, List.cons_append, hs']⟩

theorem infixConsCases (t b : List Char) (c : Char) (h : InfixOf t (c :: b)) :
    t = [] ∨ t.head? = some c ∨ InfixOf t b := by
  obtain ⟨p, s, hs⟩ := h
  cases p with
  | nil =>
    cases t with
    | nil => exact Or.inl rfl
    | cons u t' =>
      injection hs with h1 h2
      exact Or.inr (Or.inl (by rw [List.head?_cons, h1]))
  | cons q p' =>
    injection hs with h1 h2
    exact Or.inr (Or.inr ⟨p', s, h2⟩)

theorem infixAvoid (t a b : List Char) (c : Char) (hne : c ∉ t)
    (h : InfixOf t (a ++ c :: b)) : InfixOf t a ∨ InfixOf t b := by
  induction a generalizing t with
  | nil =>
    rcases infixConsCases t b c h with rfl | hh | hh
    · exact Or.inl ⟨[], [], rfl⟩
    · cases t with
      | nil => exact Or.inl ⟨[], [], rfl⟩
      | cons u t' =>
        rw [List.head?_cons, Option.some_inj] at hh
        exact absurd (hh ▸ List.mem_cons_self u t') hne
    · exact Or.inr hh
  | cons x a' ih =>
    obtain ⟨p, s, hs⟩ := h
    cases p with
    | nil =>
      have hpre : ∃ s', t ++ s' = (x :: a') :=
        prefixAvoid t (x :: a') b c hne ⟨s, by simpa using hs⟩
      obtain ⟨s', hs'⟩ := hpre
      exact Or.inl ⟨[], s', by simpa using hs'⟩
    | cons q p' =>
      rw [List.cons_append] at hs
      injection hs with h1 h2
      rcases ih t hne ⟨p', s, h2⟩ with hl | hr
      · obtain ⟨p'', s'', hw⟩ := hl
        exact Or.inl ⟨x :: p'', s'', by rw [← hw]; simp⟩
      · exact Or.inr hr

theorem splitTagsAux_append_sep (xs ys acc : List Char) :
    splitTagsAux (xs ++ ',' :: ' ' :: ys) acc =
      splitTagsAux xs acc ++ splitTagsAux ys [] := by
  induction xs, acc using splitTagsAux.induct with
  | case1 acc =>
    simp [splitTagsAux]
  | case2 c acc =>
    by_cases hc : c = ','
    · subst hc
      simp [splitTagsAux]
    · simp [splitTagsAux, hc]
  | case3 c c2 rest acc hsep ih =>
    obtain ⟨hc, hc2⟩ := hsep
    subst hc; subst hc2
    simp only [List.cons_append, List.append_eq, splitTagsAux, and_self, if_true, ite_true]
    simp [ih]
  | case4 c c2 rest acc hsep ih =>
    simp only [List.cons_append] at ih
    simp only [List.cons_append, List.append_eq, splitTagsAux, hsep, if_false]
    exact ih

theorem hasSep_false_split (l : List Char) (h : hasSep l = false) (acc : List Char) :
    splitTagsAux l acc = [acc.reverse ++ l] := by
  induction l, acc using splitTagsAux.induct with
  | case1 acc => simp [splitTagsAux]
  | case2 c acc => simp [splitTagsAux]
  | case3 c c2 rest acc hsep ih =>
    simp [hasSep, hsep.1, hsep.2] at h
  | case4 c c2 rest acc hsep ih =>
    simp only [hasSep, Bool.or_eq_false_iff] at h
    simp only [splitTagsAux, hsep, if_false]
    rw [ih h.2]
    simp

theorem hasSep_comma (l : List Char) (h : hasSep l = true) : ',' ∈ l := by
  induction l using hasSep.induct with
  | case1 => simp [hasSep] at h
  | case2 c => simp [hasSep] at h
  | case3 c c2 rest ih =>
    simp only [hasSep, Bool.or_eq_true, Bool.and_eq_true, decide_eq_true_eq] at h
    rcases h with ⟨rfl, _⟩ | h
    · exact List.mem_cons_self _ _
    · exact List.mem_cons_of_mem c (ih h)

theorem cleanNoSep (l : List Char) (h : CleanChars l) : hasSep l = false := by
  rcases Bool.eq_false_or_eq_true (hasSep l) with ht | hf
  · exact absurd (hasSep_comma l ht) h.2.1
  · exact hf

theorem provTags_single (t : String) (h : hasSep t.data = false) : provTags t = [t] := by
  unfold provTags
  rw [hasSep_false_split t.data h []]
  simp [str_mk_data]

theorem provTags_append_tag (f t : String) :
    provTags (f ++ ", " ++ t) = provTags f ++ provTags t := by
  unfold provTags
  have hd : (f ++ ", " ++ t).data = f.data ++ ',' :: ' ' :: t.data := by
    rw [str_data_append, str_data_append]
    show f.data ++ [',', ' '] ++ t.data = f.data ++ ',' :: ' ' :: t.data
    simp
  rw [hd, splitTagsAux_append_sep]
  simp

theorem joinTags_cons_data (t : String) (ts : List String) (h : ts ≠ []) :
    (joinTags (t :: ts)).data = t.data ++ ',' :: ' ' :: (joinTags ts).data := by
  match ts, h with
  | t2 :: ts', _ =>
    show (t ++ ", " ++ joinTags (t2 :: ts')).data = _
    rw [str_data_append, str_data_append]
    simp

theorem joinTags_snoc (S : List String) (t : String) (h : S ≠ []) :
    joinTags (S ++ [t]) = joinTags S ++ ", " ++ t := by
  induction S with
  | nil => exact absurd rfl h
  | cons s S' ih =>
    cases S' with
    | nil => rfl
    | cons s2 S'' =>
      show joinTags (s :: ((s2 :: S'') ++ [t])) = joinTags (s :: s2 :: S'') ++ ", " ++ t
      have h1 : (s2 :: S'') ++ [t] ≠ [] := by simp
      show s ++ ", " ++ joinTags ((s2 :: S'') ++ [t]) = (s ++ ", " ++ joinTags (s2 :: S'')) ++ ", " ++ t
      rw [ih (by simp)]
      simp [String.append_assoc]

theorem memInfixJoin (t : String) (S : List String) (h : t ∈ S) :
    InfixOf t.data (joinTags S).data := by
  induction S with
  | nil => simp at h
  | cons s S' ih =>
    rcases List.mem_cons.mp h with rfl | hmem
    · cases S' with
      | nil => exact infixRefl t.data
      | cons s2 S'' =>
        rw [joinTags_cons_data _ _ (by simp)]
        exact ⟨[], ',' :: ' ' :: (joinTags (s2 :: S'')).data, by simp⟩
    · cases S' with
      | nil => simp at hmem
      | cons s2 S'' =>
        rw [joinTags_cons_data _ _ (by simp)]
        obtain ⟨p, sfx, hw⟩ := ih hmem
        exact ⟨s.data ++ ',' :: ' ' :: p, sfx, by rw [← hw]; simp⟩

theorem infixJoinElem (t : String) (S : List String)
    (hS : ∀ s ∈ S, CleanChars s.data) (ht : CleanChars t.data)
    (h : InfixOf t.data (joinTags S).data) : ∃ s ∈ S, InfixOf t.data s.data := by
  induction S with
  | nil =>
    obtain ⟨p, sfx, hw⟩ := h
    have hnil : t.data = [] := by
      rcases List.append_eq_nil.mp
        (List.append_eq_nil.mp (show (p ++ t.data) ++ sfx = [] from hw)).1 with ⟨_, h2⟩
      exact h2
    exact absurd hnil ht.1
  | cons s S' ih =>
    cases S' with
    | nil => exact ⟨s, by simp, h⟩
    | cons s2 S'' =>
      rw [joinTags_cons_data _ _ (by simp)] at h
      rcases infixAvoid t.data s.data (' ' :: (joinTags (s2 :: S'')).data) ',' ht.2.1 h with hl | hr
      · exact ⟨s, by simp, hl⟩
      · rcases infixConsCases t.data (joinTags (s2 :: S'')).data ' ' hr with heq | hh | hh
        · exact absurd heq ht.1
        · exact absurd hh ht.2.2
        · obtain ⟨s', hs', hw⟩ := ih (fun x hx => hS x (List.mem_cons_of_mem s hx)) hh
          exact ⟨s', List.mem_cons_of_mem s hs', hw⟩

theorem provTags_join (S : List String) (hS : ∀ s ∈ S, CleanChars s.data) (h : S ≠ []) :
    provTags (joinTags S) = S := by
  induction S with
  | nil => exact absurd rfl h
  | cons s S' ih =>
    cases S' with
    | nil =>
      exact provTags_single s (cleanNoSep s.data (hS s (by simp)))
    | cons s2 S'' =>
      unfold provTags
      rw [joinTags_cons_data _ _ (by simp), splitTagsAux_append_sep]
      have h1 : splitTagsAux s.data [] = [s.data] := by
        rw [hasSep_false_split s.data (cleanNoSep s.data (hS s (by simp))) []]
        simp
      rw [h1]
      have h2 := ih (fun x hx => hS x (List.mem_cons_of_mem s hx)) (by simp)
      unfold provTags at h2
      simp only [List.map_append, List.map_cons, List.map_nil, h2]
      simp [str_mk_data]

theorem containsJoin_iff (t : String) (S : List String)
    (hS : ∀ s ∈ S, CleanChars s.data) (ht : CleanChars t.data)
    (hNS : ∀ s ∈ S, InfixOf t.data s.data → t = s) :
    strContains (joinTags S) t = true ↔ t ∈ S := by
  rw [strContains_iff]
  constructor
  · intro h
    obtain ⟨s, hs, hw⟩ := infixJoinElem t S hS ht h
    exact (hNS s hs hw) ▸ hs
  · exact memInfixJoin t S

theorem scopeFind_update_self (sc : Scope) (key : String) (nv : RepoInfo) :
    scopeFind (updateScope sc key nv) key = (scopeFind sc key).map (fun _ => nv) := by
  induction sc with
  | nil => rfl
  | cons p rest ih =>
    obtain ⟨k, v⟩ := p
    by_cases hk : k = key
    · simp [updateScope, scopeFind, hk]
    · simp [updateScope, scopeFind, hk, ih]

theorem scopeFind_update_ne (sc : Scope) (key k : String) (nv : RepoInfo) (h : k ≠ key) :
    scopeFind (updateScope sc key nv) k = scopeFind sc k := by
  induction sc with
  | nil => rfl
  | cons p rest ih =>
    obtain ⟨k', v⟩ := p
    by_cases hk : k' = key
    · subst hk
      simp [updateScope, scopeFind, Ne.symm h, ih]
    · by_cases hk2 : k' = k
      · simp [updateScope, scopeFind, hk, hk2, h]
      · simp [updateScope, scopeFind, hk, hk2, ih]

theorem mergeScope_find_self (sc : Scope) (name : String) (info : RepoInfo) (fb : String) :
    scopeFind (mergeScope sc name info fb) name =
      match scopeFind sc name with
      | none => some info
      | some old =>
        if strContains old.found_by fb then some old
        else some { old with found_by := old.found_by ++ ", " ++ fb } := by
  unfold mergeScope
  cases hf : scopeFind sc name with
  | none => simp [scopeFind]
  | some old =>
    by_cases hc : strContains old.found_by fb
    · simp [hc, hf]
    · simp [hc, scopeFind_update_self, hf]

theorem mergeScope_find_ne (sc : Scope) (name k : String) (info : RepoInfo) (fb : String)
    (h : k ≠ name) :
    scopeFind (mergeScope sc name info fb) k = scopeFind sc k := by
  unfold mergeScope
  cases hf : scopeFind sc name with
  | none => simp [scopeFind, Ne.symm h]
  | some old =>
    by_cases hc : strContains old.found_by fb
    · simp [hc]
    · simp [hc, scopeFind_update_ne sc name k _ h]

theorem mergeScope_fresh (sc : Scope) (name : String) (info : RepoInfo) (fb : String)
    (h : scopeFind sc name = none) : mergeScope sc name info fb = (name, info) :: sc := by
  unfold mergeScope
  rw [h]

theorem mergeScope_contains_eq (sc : Scope) (name : String) (info : RepoInfo) (fb : String)
    (old : RepoInfo) (h : scopeFind sc name = some old)
    (hc : strContains old.found_by fb = true) : mergeScope sc name info fb = sc := by
  unfold mergeScope
  rw [h]
  simp [hc]

theorem strContains_self (s : String) : strContains s s = true :=
  (strContains_iff s s).mpr (infixRefl s.data)

theorem sep_append_data (f t : String) :
    (f ++ ", " ++ t).data = f.data ++ ',' :: ' ' :: t.data := by
  rw [str_data_append, str_data_append]
  show f.data ++ [',', ' '] ++ t.data = f.data ++ ',' :: ' ' :: t.data
  simp

theorem strContains_append_self (f t : String) : strContains (f ++ ", " ++ t) t = true := by
  rw [strContains_iff, sep_append_data]
  exact ⟨f.data ++ [',', ' '], [], by simp⟩

theorem addRepository_repos (st : SearchState) (rd : RepoData) (fb : String) (b : Bool) :
    (addRepository st rd fb b).repos =
      mergeScope st.repos (repoOf rd).full_name
        ⟨(repoOf rd).html_url, getDesc (repoOf rd).description, fb⟩ fb := rfl

theorem addRepository_current (st : SearchState) (rd : RepoData) (fb : String) (b : Bool) :
    (addRepository st rd fb b).current_search_repos =
      if b then
        mergeScope st.current_search_repos (repoOf rd).full_name
          ⟨(repoOf rd).html_url, getDesc (repoOf rd).description, fb⟩ fb
      else st.current_search_repos := rfl

/-- Claim C1, as stated, is false at a concrete input: merging an item whose
identity key is already present in the global scope keeps the stored url and
description (the incoming url and description are discarded), while only the
provenance string gains the new tag. -/
theorem c1_counterexample :
    scopeFind
      (addRepository
        ⟨[("acme/widget", ⟨"https://old.example", some "old text", "tag1"⟩)], []⟩
        (.plain ⟨"acme/widget", "https://new.example", .str "new text"⟩)
        "tag2" true).repos "acme/widget" =
      some ⟨"https://old.example", some "old text", "tag1, tag2"⟩ ∧
    "https://old.example" ≠ "https://new.example" := by
  constructor
  · rfl
  · decide

/-- Claim C1 (amended): for every merge of an item whose identity key is
already present in a scope (batch or global), the merge keeps the record's
non-provenance fields (url, description) unchanged — first-write-wins — and
the provenance string gains the new tag, appended after the separator, only
if it is not already contained as a substring of the existing joined
provenance string. -/
theorem c1_merge_keeps_nonprovenance (st : SearchState) (rd : RepoData) (fb : String)
    (b : Bool) (old : RepoInfo) :
    (scopeFind st.repos (repoOf rd).full_name = some old →
      scopeFind (addRepository st rd fb b).repos (repoOf rd).full_name =
        some { url := old.url, description := old.description,
               found_by := if strContains old.found_by fb then old.found_by
                           else old.found_by ++ ", " ++ fb }) ∧
    (b = true → scopeFind st.current_search_repos (repoOf rd).full_name = some old →
      scopeFind (addRepository st rd fb b).current_search_repos (repoOf rd).full_name =
        some { url := old.url, description := old.description,
               found_by := if strContains old.found_by fb then old.found_by
                           else old.found_by ++ ", " ++ fb }) := by
  constructor
  · intro h
    rw [addRepository_repos, mergeScope_find_self, h]
    by_cases hc : strContains old.found_by fb
    · simp [hc]
    · simp [hc]
  · intro hb h
    rw [addRepository_current, hb, if_pos rfl, mergeScope_find_self, h]
    by_cases hc : strContains old.found_by fb
    · simp [hc]
    · simp [hc]

/-- Witness for the amended claim C1 at a concrete input. -/
theorem c1_merge_keeps_nonprovenance_witness :
    scopeFind (⟨[("k/r", ⟨"u1", some "d1", "t1"⟩)], []⟩ : SearchState).repos "k/r" =
      some ⟨"u1", some "d1", "t1"⟩ ∧
    scopeFind
      (addRepository ⟨[("k/r", ⟨"u1", some "d1", "t1"⟩)], []⟩
        (.plain ⟨"k/r", "u2", .str "d2"⟩) "t2" false).repos "k/r" =
      some { url := "u1", description := some "d1",
             found_by := if strContains "t1" "t2" then "t1" else "t1" ++ ", " ++ "t2" } := by
  refine ⟨by rfl, ?_⟩
  exact (c1_merge_keeps_nonprovenance ⟨[("k/r", ⟨"u1", some "d1", "t1"⟩)], []⟩
    (.plain ⟨"k/r", "u2", .str "d2"⟩) "t2" false ⟨"u1", some "d1", "t1"⟩).1 (by rfl)

/-- Claim C3: merging the same (identity, tag) pair twice is idempotent — the
second merge leaves the whole state unchanged, so a tag is never appended
twice verbatim — and, for a tag without the separator merged under a fresh
key, the provenance set afterwards contains the tag exactly once (in the
batch scope as well when batch tracking is on). -/
theorem c3_dedup_idempotent (st : SearchState) (rd : RepoData) (fb : String) (b : Bool)
    (h1 : hasSep fb.data = false)
    (h2 : scopeFind st.repos (repoOf rd).full_name = none)
    (h3 : scopeFind st.current_search_repos (repoOf rd).full_name = none) :
    addRepository (addRepository st rd fb b) rd fb b = addRepository st rd fb b ∧
    (∃ i, scopeFind (addRepository st rd fb b).repos (repoOf rd).full_name = some i ∧
      (provTags i.found_by).count fb = 1) ∧
    (b = true →
      ∃ i, scopeFind (addRepository st rd fb b).current_search_repos (repoOf rd).full_name =
          some i ∧ (provTags i.found_by).count fb = 1) := by
  have hfr : scopeFind (addRepository st rd fb b).repos (repoOf rd).full_name =
      some ⟨(repoOf rd).html_url, getDesc (repoOf rd).description, fb⟩ := by
    rw [addRepository_repos, mergeScope_fresh _ _ _ _ h2]
    simp [scopeFind]
  refine ⟨?_, ?_, ?_⟩
  · have hrepos : mergeScope (addRepository st rd fb b).repos (repoOf rd).full_name
        ⟨(repoOf rd).html_url, getDesc (repoOf rd).description, fb⟩ fb =
        (addRepository st rd fb b).repos :=
      mergeScope_contains_eq _ _ _ _ _ hfr (strContains_self fb)
    cases b with
    | false =>
      apply SearchState.ext
      · rw [addRepository_repos]
        exact hrepos
      · rfl
    | true =>
      have hfc : scopeFind (addRepository st rd fb true).current_search_repos
          (repoOf rd).full_name =
          some ⟨(repoOf rd).html_url, getDesc (repoOf rd).description, fb⟩ := by
        rw [addRepository_current, if_pos rfl, mergeScope_fresh _ _ _ _ h3]
        simp [scopeFind]
      apply SearchState.ext
      · rw [addRepository_repos]
        exact hrepos
      · rw [addRepository_current, if_pos rfl]
        exact mergeScope_contains_eq _ _ _ _ _ hfc (strContains_self fb)
  · exact ⟨_, hfr, by rw [provTags_single fb h1]; simp⟩
  · intro hb
    subst hb
    refine ⟨⟨(repoOf rd).html_url, getDesc (repoOf rd).description, fb⟩, ?_, ?_⟩
    · rw [addRepository_current, if_pos rfl, mergeScope_fresh _ _ _ _ h3]
      simp [scopeFind]
    · rw [provTags_single fb h1]
      simp

/-- Witness for claim C3 at a concrete input. -/
theorem c3_dedup_idempotent_witness :
    hasSep "t1".data = false ∧
    (addRepository (addRepository ⟨[], []⟩ (.plain ⟨"k/r", "u1", .absent⟩) "t1" true)
        (.plain ⟨"k/r", "u1", .absent⟩) "t1" true =
      addRepository ⟨[], []⟩ (.plain ⟨"k/r", "u1", .absent⟩) "t1" true) := by
  refine ⟨by decide, ?_⟩
  exact (c3_dedup_idempotent ⟨[], []⟩ (.plain ⟨"k/r", "u1", .absent⟩) "t1" true
    (by decide) (by rfl) (by rfl)).1

/-- Claim C7: a repository-API URL with fewer than 5 slash-separated parts is
skipped (the state is unchanged, no record is merged); a URL with at least 5
parts yields the identity owner/name from its last two segments and the
synthesized canonical URL, which land in the global scope when the key is
fresh. -/
theorem c7_issue_url_parsing (st : SearchState) (repo_url fb : String) (b : Bool) :
    ((splitSlash repo_url).length < 5 → processIssueItem st repo_url fb b = st) ∧
    (5 ≤ (splitSlash repo_url).length →
      scopeFind st.repos
        ((splitSlash repo_url).getD ((splitSlash repo_url).length - 2) "" ++ "/" ++
          (splitSlash repo_url).getD ((splitSlash repo_url).length - 1) "") = none →
      scopeFind (processIssueItem st repo_url fb b).repos
        ((splitSlash repo_url).getD ((splitSlash repo_url).length - 2) "" ++ "/" ++
          (splitSlash repo_url).getD ((splitSlash repo_url).length - 1) "") =
        some ⟨"https://github.com/" ++
                (splitSlash repo_url).getD ((splitSlash repo_url).length - 2) "" ++ "/" ++
                (splitSlash repo_url).getD ((splitSlash repo_url).length - 1) "",
              some "", fb⟩) := by
  constructor
  · intro h
    unfold processIssueItem
    rw [if_neg (by omega)]
  · intro h hfresh
    unfold processIssueItem
    rw [if_pos h]
    rw [addRepository_repos]
    simp only [repoOf]
    rw [mergeScope_fresh _ _ _ _ hfresh]
    simp [scopeFind, getDesc]

/-- Witness for claim C7 at concrete inputs: a 3-part URL is skipped, a
6-part URL yields identity acme/widget and the synthesized canonical URL. -/
theorem c7_issue_url_parsing_witness :
    ((splitSlash "https:/malformed").length < 5 ∧
      processIssueItem ⟨[], []⟩ "https:/malformed" "t1" true = ⟨[], []⟩) ∧
    (5 ≤ (splitSlash "https://api.github.com/repos/acme/widget").length ∧
      scopeFind
        (processIssueItem ⟨[], []⟩ "https://api.github.com/repos/acme/widget" "t1"
          true).repos "acme/widget" =
        some ⟨"https://github.com/acme/widget", some "", "t1"⟩) := by
  constructor
  · exact ⟨by decide,
      (c7_issue_url_parsing ⟨[], []⟩ "https:/malformed" "t1" true).1 (by decide)⟩
  · refine ⟨by decide, ?_⟩
    have h := (c7_issue_url_parsing ⟨[], []⟩ "https://api.github.com/repos/acme/widget"
      "t1" true).2 (by decide) (by rfl)
    exact h

/-- Claim C8: for every adapter item shape (nested repository object or plain
repository object), a repository object whose description key is absent is
merged with the sentinel description No description, and the operation
succeeds (a record is present afterwards). -/
theorem c8_missing_description_sentinel (st : SearchState) (rd : RepoData) (fb : String)
    (b : Bool) (h1 : (repoOf rd).description = .absent)
    (h2 : scopeFind st.repos (repoOf rd).full_name = none) :
    ∃ i, scopeFind (addRepository st rd fb b).repos (repoOf rd).full_name = some i ∧
      i.description = some "No description" := by
  refine ⟨⟨(repoOf rd).html_url, getDesc (repoOf rd).description, fb⟩, ?_, ?_⟩
  · rw [addRepository_repos, mergeScope_fresh _ _ _ _ h2]
    simp [scopeFind]
  · rw [h1]
    rfl

/-- Witness for claim C8 at concrete inputs (both item shapes). -/
theorem c8_missing_description_sentinel_witness :
    (∃ i, scopeFind (addRepository ⟨[], []⟩ (.wrapped ⟨"a/b", "u", .absent⟩) "t" true).repos
        "a/b" = some i ∧ i.description = some "No description") ∧
    (∃ i, scopeFind (addRepository ⟨[], []⟩ (.plain ⟨"a/b", "u", .absent⟩) "t" false).repos
        "a/b" = some i ∧ i.description = some "No description") :=
  ⟨c8_missing_description_sentinel ⟨[], []⟩ (.wrapped ⟨"a/b", "u", .absent⟩) "t" true
      (by rfl) (by rfl),
    c8_missing_description_sentinel ⟨[], []⟩ (.plain ⟨"a/b", "u", .absent⟩) "t" false
      (by rfl) (by rfl)⟩

/-- Claim C10: a description key present with a null value is stored as the
null value, not as the sentinel; the sentinel is substituted exactly when the
key is absent. -/
theorem c10_null_description_kept (st : SearchState) (rd : RepoData) (fb : String)
    (b : Bool) (h2 : scopeFind st.repos (repoOf rd).full_name = none) :
    ((repoOf rd).description = .null →
      ∃ i, scopeFind (addRepository st rd fb b).repos (repoOf rd).full_name = some i ∧
        i.description = none ∧ i.description ≠ some "No description") ∧
    ((repoOf rd).description = .absent →
      ∃ i, scopeFind (addRepository st rd fb b).repos (repoOf rd).full_name = some i ∧
        i.description = some "No description") := by
  have hfind : scopeFind (addRepository st rd fb b).repos (repoOf rd).full_name =
      some ⟨(repoOf rd).html_url, getDesc (repoOf rd).description, fb⟩ := by
    rw [addRepository_repos, mergeScope_fresh _ _ _ _ h2]
    simp [scopeFind]
  constructor
  · intro h
    refine ⟨_, hfind, ?_, ?_⟩
    · rw [h]; rfl
    · rw [h]; simp [getDesc]
  · intro h
    refine ⟨_, hfind, ?_⟩
    rw [h]; rfl

/-- Witness for claim C10 at a concrete input with a null description. -/
theorem c10_null_description_kept_witness :
    ∃ i, scopeFind (addRepository ⟨[], []⟩ (.plain ⟨"a/b", "u", .null⟩) "t" true).repos
        "a/b" = some i ∧ i.description = none ∧ i.description ≠ some "No description" :=
  (c10_null_description_kept ⟨[], []⟩ (.plain ⟨"a/b", "u", .null⟩) "t" true (by rfl)).1
    (by rfl)

/-- Claim C9: both hardcoded time-window tables parse to lists of valid
closed date intervals that are chronologically ordered, pairwise disjoint,
and exactly adjacent (the day after each window's end is the next window's
start), so their concatenation reconstructs the respective overall range
2023-07-01..2025-04-30 and 2024-11-01..2025-04-30 with no gaps and no
overlaps; the February 2024 window ends on the correct leap-year boundary
2024-02-29 (whose successor is 2024-03-01, while 2024-02-30 is not a valid
date), and the February 2025 window ends on 2025-02-28. -/
theorem c9_window_coverage :
    (∃ w, parsedWindows issueTimeRanges = some w ∧ WindowsOk w ∧
      w.head? = some ((2023, 7, 1), (2023, 7, 31)) ∧
      w.getLast? = some ((2025, 4, 16), (2025, 4, 30)) ∧
      ((2024, 2, 1), (2024, 2, 29)) ∈ w) ∧
    (∃ wd, parsedWindows windsurfDescTimeRanges = some wd ∧ WindowsOk wd ∧
      wd.head? = some ((2024, 11, 1), (2024, 11, 30)) ∧
      wd.getLast? = some ((2025, 4, 16), (2025, 4, 30)) ∧
      ((2025, 2, 1), (2025, 2, 28)) ∈ wd) ∧
    validDate (2024, 2, 29) ∧ ¬ validDate (2024, 2, 30) ∧
    nextDay (2024, 2, 29) = (2024, 3, 1) ∧ ¬ validDate (2025, 2, 29) := by
  refine ⟨⟨[ ((2023, 7, 1), (2023, 7, 31)),
      ((2023, 8, 1), (2023, 8, 31)),
      ((2023, 9, 1), (2023, 9, 30)),
      ((2023, 10, 1), (2023, 10, 31)),
      ((2023, 11, 1), (2023, 11, 30)),
      ((2023, 12, 1), (2023, 12, 31)),
      ((2024, 1, 1), (2024, 1, 31)),
      ((2024, 2, 1), (2024, 2, 29)),
      ((2024, 3, 1), (2024, 3, 31)),
      ((2024, 4, 1), (2024, 4, 30)),
      ((2024, 5, 1), (2024, 5, 31)),
      ((2024, 6, 1), (2024, 6, 30)),
      ((2024, 7, 1), (2024, 7, 31)),
      ((2024, 8, 1), (2024, 8, 31)),
      ((2024, 9, 1), (2024, 9, 30)),
      ((2024, 10, 1), (2024, 10, 31)),
      ((2024, 11, 1), (2024, 11, 30)),
      ((2024, 12, 1), (2024, 12, 31)),
      ((2025, 1, 1), (2025, 1, 31)),
      ((2025, 2, 1), (2025, 2, 28)),
      ((2025, 3, 1), (2025, 3, 15)),
      ((2025, 3, 16), (2025, 3, 31)),
      ((2025, 4, 1), (2025, 4, 15)),
      ((2025, 4, 16), (2025, 4, 30)) ], ?_, ?_, ?_, ?_, ?_⟩,
    ⟨[ ((2024, 11, 1), (2024, 11, 30)),
      ((2024, 12, 1), (2024, 12, 31)),
      ((2025, 1, 1), (2025, 1, 31)),
      ((2025, 2, 1), (2025, 2, 28)),
      ((2025, 3, 1), (2025, 3, 15)),
      ((2025, 3, 16), (2025, 3, 31)),
      ((2025, 4, 1), (2025, 4, 15)),
      ((2025, 4, 16), (2025, 4, 30)) ], ?_, ?_, ?_, ?_, ?_⟩, ?_, ?_, ?_, ?_⟩ <;> decide

theorem pagesCat_succ {α : Type} (pages : Nat → List α) (j n : Nat) :
    pagesCat pages j (n + 1) = pages j ++ pagesCat pages (j + 1) n := rfl

theorem pagesCat_length {α : Type} (pages : Nat → List α) (P : Nat)
    (j n : Nat) (h : ∀ p, j ≤ p → (pages p).length = P) :
    (pagesCat pages j n).length = n * P := by
  induction n generalizing j with
  | zero => simp [pagesCat]
  | succ n ih =>
    rw [pagesCat_succ, List.length_append, h j (Nat.le_refl j),
      ih (j + 1) (fun p hp => h p (by omega))]
    ring

theorem countReq_nil : countReq [] = 0 := rfl

theorem countReq_req (p : Nat) (tr : List ExecEvent) :
    countReq (.req p :: tr) = countReq tr + 1 := by
  unfold countReq
  simp [List.countP_cons]

theorem countReq_sleep (d : Int) (tr : List ExecEvent) :
    countReq (.sleep d :: tr) = countReq tr := by
  unfold countReq
  simp [List.countP_cons]

theorem makeRequestAux_ok_step {α : Type} (oracle : Nat → Nat → MockResp α × Int)
    (maxR f attempt page : Nat) (acc : List α) (total : Nat)
    (rem rst : Int) (T : Nat) (items : List α) (now : Int)
    (h : oracle attempt page = (.ok rem rst T items, now)) (hrem : ¬ rem ≤ 1)
    (hne : items ≠ []) :
    makeRequestAux oracle maxR (f + 1) attempt page acc total =
      if min (if page = 1 then T else total) maxR ≤ (acc ++ items).length then
        ⟨[.req page], acc ++ items, if page = 1 then T else total, true⟩
      else
        ⟨.req page :: .sleep 1 ::
            (makeRequestAux oracle maxR f (attempt + 1) (page + 1) (acc ++ items)
              (if page = 1 then T else total)).trace,
          (makeRequestAux oracle maxR f (attempt + 1) (page + 1) (acc ++ items)
            (if page = 1 then T else total)).items,
          (makeRequestAux oracle maxR f (attempt + 1) (page + 1) (acc ++ items)
            (if page = 1 then T else total)).total,
          (makeRequestAux oracle maxR f (attempt + 1) (page + 1) (acc ++ items)
            (if page = 1 then T else total)).finished⟩ := by
  rw [makeRequestAux, h]
  simp only [if_neg hrem, List.isEmpty_iff, hne, if_neg (fun hx => hne hx)]
  rfl

theorem pagLoop {α : Type} (oracle : Nat → Nat → MockResp α × Int)
    (pages : Nat → List α) (rem rst nw : Nat → Nat → Int) (T P k : Nat)
    (horacle : ∀ a p, oracle a p = (.ok (rem a p) (rst a p) T (pages p), nw a p))
    (hrem : ∀ a p, ¬ rem a p ≤ 1)
    (hpages : ∀ p, 1 ≤ p → (pages p).length = P)
    (hP : 0 < P)
    (hk2 : min T 1000 ≤ k * P)
    (hk3 : ∀ j, 1 ≤ j → j < k → j * P < min T 1000) :
    ∀ n fuel j (acc : List α) total, 1 ≤ j → j ≤ k → n = k - j → k - j < fuel →
      acc.length = (j - 1) * P → (j = 1 ∨ total = T) →
      (makeRequestAux oracle 1000 fuel j j acc total).items =
          acc ++ pagesCat pages j (k + 1 - j) ∧
        (makeRequestAux oracle 1000 fuel j j acc total).total = T ∧
        (makeRequestAux oracle 1000 fuel j j acc total).finished = true ∧
        countReq (makeRequestAux oracle 1000 fuel j j acc total).trace = k + 1 - j := by
  intro n
  induction n with
  | zero =>
    intro fuel j acc total hj1 hjk hn hfuel hacc htot
    have hjkeq : j = k := by omega
    subst hjkeq
    obtain ⟨f, rfl⟩ : ∃ f, fuel = f + 1 := ⟨fuel - 1, by omega⟩
    have hlen : (pages j).length = P := hpages j hj1
    have hne : pages j ≠ [] := by
      intro hx
      rw [hx] at hlen
      simp at hlen
      omega
    rw [makeRequestAux_ok_step oracle 1000 f j j acc total _ _ _ _ _
      (horacle j j) (hrem j j) hne]
    have htot' : (if j = 1 then T else total) = T := by
      rcases htot with h1 | h1
      · simp [h1]
      · simp [h1]
    rw [htot']
    have hmul : (j - 1) * P + P = j * P := by
      cases j with
      | zero => omega
      | succ jj => simp [Nat.succ_sub_one, Nat.succ_mul]
    have hcond : min T 1000 ≤ (acc ++ pages j).length := by
      rw [List.length_append, hacc, hlen]
      omega
    rw [if_pos hcond]
    have h1 : j + 1 - j = 1 := by omega
    refine ⟨?_, rfl, rfl, ?_⟩
    · rw [h1]
      show acc ++ pages j = acc ++ pagesCat pages j 1
      simp [pagesCat]
    · rw [h1]
      show countReq [ExecEvent.req j] = 1
      rw [show [ExecEvent.req j] = ExecEvent.req j :: [] from rfl, countReq_req, countReq_nil]
  | succ n ih =>
    intro fuel j acc total hj1 hjk hn hfuel hacc htot
    have hjk' : j < k := by omega
    obtain ⟨f, rfl⟩ : ∃ f, fuel = f + 1 := ⟨fuel - 1, by omega⟩
    have hlen : (pages j).length = P := hpages j hj1
    have hne : pages j ≠ [] := by
      intro hx
      rw [hx] at hlen
      simp at hlen
      omega
    rw [makeRequestAux_ok_step oracle 1000 f j j acc total _ _ _ _ _
      (horacle j j) (hrem j j) hne]
    have htot' : (if j = 1 then T else total) = T := by
      rcases htot with h1 | h1
      · simp [h1]
      · simp [h1]
    rw [htot']
    have hlen2 : (acc ++ pages j).length = j * P := by
      rw [List.length_append, hacc, hlen]
      cases j with
      | zero => omega
      | succ jj => simp [Nat.succ_sub_one, Nat.succ_mul]
    have hcond : ¬ min T 1000 ≤ (acc ++ pages j).length := by
      rw [hlen2]
      have := hk3 j hj1 hjk'
      omega
    rw [if_neg hcond]
    have hrec := ih f (j + 1) (acc ++ pages j) T (by omega) (by omega) (by omega)
      (by omega) (by rw [hlen2, Nat.add_sub_cancel]) (Or.inr rfl)
    refine ⟨?_, hrec.2.1, hrec.2.2.1, ?_⟩
    · show (makeRequestAux oracle 1000 f (j + 1) (j + 1) (acc ++ pages j) T).items = _
      rw [hrec.1, List.append_assoc]
      have hs : k + 1 - j = (k - j) + 1 := by omega
      have hs2 : k + 1 - (j + 1) = k - j := by omega
      rw [hs2, hs, pagesCat_succ]
    · show countReq (ExecEvent.req j :: ExecEvent.sleep 1 ::
        (makeRequestAux oracle 1000 f (j + 1) (j + 1) (acc ++ pages j) T).trace) = k + 1 - j
      rw [countReq_req, countReq_sleep, hrec.2.2.2]
      omega

/-- Claim C5, as stated, is false at a concrete input: a mocked endpoint
reporting total_count 3 that serves full pages of 2 items makes the executor
fetch 2 pages (the ceiling, as claimed) but return all 4 accumulated items —
the overshoot of the last page past min(total, max_results) = 3 is not
truncated. -/
theorem c5_counterexample :
    ((makeRequest (fun _ page => (MockResp.ok 100 0 3 (List.replicate 2 page), 0))
        1000 5).items.length,
      countReq (makeRequest
        (fun _ page => (MockResp.ok 100 0 3 (List.replicate 2 page), 0)) 1000 5).trace,
      (makeRequest (fun _ page => (MockResp.ok 100 0 3 (List.replicate 2 page), 0))
        1000 5).finished) = (4, 2, true) ∧
    (4 : Nat) ≠ min 3 1000 := by
  constructor
  · rfl
  · decide

/-- Claim C5 (amended): for a mocked endpoint reporting total_count T whose
pages all have size P (0 < P), with per_page P and max_results 1000 and
ample quota, the executor terminates on its own, reports total T, and
fetches exactly k pages, where k is the least positive page count with
min(T, 1000) ≤ k·P (that is, max(1, ceil(min(T, 1000)/P))), returning the
concatenation of pages 1..k in fetch order — k·P items, which can exceed
min(T, 1000) because the final page is not truncated. -/
theorem c5_pagination_termination {α : Type} (oracle : Nat → Nat → MockResp α × Int)
    (pages : Nat → List α) (rem rst nw : Nat → Nat → Int) (T P k fuel : Nat)
    (horacle : ∀ a p, oracle a p = (.ok (rem a p) (rst a p) T (pages p), nw a p))
    (hrem : ∀ a p, ¬ rem a p ≤ 1)
    (hpages : ∀ p, 1 ≤ p → (pages p).length = P)
    (hP : 0 < P) (hk1 : 1 ≤ k) (hk2 : min T 1000 ≤ k * P)
    (hk3 : ∀ j, 1 ≤ j → j < k → j * P < min T 1000)
    (hfuel : k ≤ fuel) :
    (makeRequest oracle 1000 fuel).finished = true ∧
    (makeRequest oracle 1000 fuel).total = T ∧
    (makeRequest oracle 1000 fuel).items = pagesCat pages 1 k ∧
    (makeRequest oracle 1000 fuel).items.length = k * P ∧
    countReq (makeRequest oracle 1000 fuel).trace = k := by
  have h := pagLoop oracle pages rem rst nw T P k horacle hrem hpages hP hk2 hk3
    (k - 1) fuel 1 [] 0 (Nat.le_refl 1) hk1 rfl (by omega) (by simp) (Or.inl rfl)
  have hk : k + 1 - 1 = k := by omega
  rw [hk] at h
  unfold makeRequest
  refine ⟨h.2.2.1, h.2.1, by rw [h.1]; simp, ?_, h.2.2.2⟩
  rw [h.1]
  simp only [List.nil_append]
  exact pagesCat_length pages P 1 k (fun p hp => hpages p hp)

/-- Witness for the amended claim C5 at a concrete input: T = 5, P = 3,
k = 2 pages, 6 items returned. -/
theorem c5_pagination_termination_witness :
    (makeRequest (fun _ page => (MockResp.ok 50 0 5 (List.replicate 3 page), 0))
        1000 2).finished = true ∧
    (makeRequest (fun _ page => (MockResp.ok 50 0 5 (List.replicate 3 page), 0))
        1000 2).total = 5 ∧
    (makeRequest (fun _ page => (MockResp.ok 50 0 5 (List.replicate 3 page), 0))
        1000 2).items = pagesCat (fun page => List.replicate 3 page) 1 2 ∧
    (makeRequest (fun _ page => (MockResp.ok 50 0 5 (List.replicate 3 page), 0))
        1000 2).items.length = 2 * 3 ∧
    countReq (makeRequest (fun _ page => (MockResp.ok 50 0 5 (List.replicate 3 page), 0))
        1000 2).trace = 2 := by
  refine c5_pagination_termination
    (fun _ page => (MockResp.ok 50 0 5 (List.replicate 3 page), 0))
    (fun page => List.replicate 3 page) (fun _ _ => 50) (fun _ _ => 0) (fun _ _ => 0)
    5 3 2 2 (fun _ _ => rfl) ?_ (fun _ _ => rfl) ?_ ?_ ?_ ?_ ?_
  · intro a p
    show ¬ (50 : Int) ≤ 1
    decide
  · decide
  · decide
  · decide
  · intro j h1 h2
    interval_cases j
    decide
  · decide

theorem makeRequestAux_trace_head {α : Type} (oracle : Nat → Nat → MockResp α × Int)
    (maxR fuel attempt page : Nat) (acc : List α) (total : Nat) :
    (makeRequestAux oracle maxR (fuel + 1) attempt page acc total).trace.head? =
      some (.req page) := by
  cases hx : oracle attempt page with
  | mk resp now =>
    rw [makeRequestAux, hx]
    cases resp with
    | ok rem rst tc items =>
      dsimp only
      split
      · rfl
      · split
        · rfl
        · split <;> split <;> rfl
    | err403 rst => rfl
    | errOther c => rfl
    | netErr => rfl

/-- Claim C6: on a response whose remaining-quota header is at most 1 —
whether a success or a 403 error — the executor's next actions are exactly
one sleep of max(reset − now, 0) + 10 seconds (the fixed safety margin), no
other request is issued before that stall ends, and the loop then retries
the same page with the same accumulator (the 403 is not fatal); when fuel
remains, the first action after the stall is the request for that same
page. -/
theorem c6_rate_limit_stall {α : Type} (oracle : Nat → Nat → MockResp α × Int)
    (maxR fuel attempt page : Nat) (acc : List α) (total : Nat) :
    (∀ (rem rst : Int) (tc : Nat) (items : List α) (now : Int),
      oracle attempt page = (.ok rem rst tc items, now) → rem ≤ 1 →
      makeRequestAux oracle maxR (fuel + 1) attempt page acc total =
        ⟨.req page :: .sleep (max (rst - now) 0 + 10) ::
            (makeRequestAux oracle maxR fuel (attempt + 1) page acc total).trace,
          (makeRequestAux oracle maxR fuel (attempt + 1) page acc total).items,
          (makeRequestAux oracle maxR fuel (attempt + 1) page acc total).total,
          (makeRequestAux oracle maxR fuel (attempt + 1) page acc total).finished⟩) ∧
    (∀ (rst now : Int),
      oracle attempt page = (.err403 rst, now) →
      makeRequestAux oracle maxR (fuel + 1) attempt page acc total =
        ⟨.req page :: .sleep (max (rst - now) 0 + 10) ::
            (makeRequestAux oracle maxR fuel (attempt + 1) page acc total).trace,
          (makeRequestAux oracle maxR fuel (attempt + 1) page acc total).items,
          (makeRequestAux oracle maxR fuel (attempt + 1) page acc total).total,
          (makeRequestAux oracle maxR fuel (attempt + 1) page acc total).finished⟩) ∧
    (∀ fuel2 : Nat,
      (makeRequestAux oracle maxR (fuel2 + 1) (attempt + 1) page acc total).trace.head? =
        some (.req page)) := by
  refine ⟨?_, ?_, ?_⟩
  · intro rem rst tc items now h hrem
    rw [makeRequestAux, h]
    dsimp only
    rw [if_pos hrem]
  · intro rst now h
    rw [makeRequestAux, h]
  · intro fuel2
    exact makeRequestAux_trace_head oracle maxR fuel2 (attempt + 1) page acc total

/-- Witness for claim C6 at concrete inputs: a success with remaining quota
0, reset 15 and now 10 stalls for exactly max(15 − 10, 0) + 10 = 15 seconds;
a 403 with reset 20 at now 5 stalls for 25 seconds; the next issued request
after a stall is for the same page. -/
theorem c6_rate_limit_stall_witness :
    (makeRequestAux (fun _ _ => (MockResp.ok 0 15 7 ([3] : List Nat), 10)) 1000 1 1 1 [] 0 =
      ⟨[.req 1, .sleep 15], [], 0, false⟩) ∧
    (makeRequestAux (fun _ _ => (MockResp.err403 20, (5 : Int))) 1000 1 1 1
        ([] : List Nat) 0 =
      ⟨[.req 1, .sleep 25], [], 0, false⟩) ∧
    ((makeRequestAux (fun _ _ => (MockResp.ok 0 15 7 ([3] : List Nat), 10)) 1000 1 2 1
        [] 0).trace.head? = some (.req 1)) := by
  refine ⟨?_, ?_, ?_⟩
  · exact (c6_rate_limit_stall (fun _ _ => (MockResp.ok 0 15 7 ([3] : List Nat), 10))
      1000 0 1 1 [] 0).1 0 15 7 [3] 10 rfl (by decide)
  · exact (c6_rate_limit_stall (fun _ _ => (MockResp.err403 20, (5 : Int)))
      1000 0 1 1 [] 0).2.1 20 5 rfl
  · exact (c6_rate_limit_stall (fun _ _ => (MockResp.ok 0 15 7 ([3] : List Nat), 10))
      1000 0 1 1 [] 0).2.2 0

theorem runMerges_nil (st : SearchState) : runMerges st [] = st := rfl

theorem runMerges_cons (st : SearchState) (o : MergeOp) (ops : List MergeOp) :
    runMerges st (o :: ops) = runMerges (addRepository st o.1 o.2.1 o.2.2) ops := rfl

theorem joinTags_inj (S0 S1 : List String)
    (h0c : ∀ s ∈ S0, CleanChars s.data) (h1c : ∀ s ∈ S1, CleanChars s.data)
    (h0 : S0 ≠ []) (h1 : S1 ≠ []) (h : joinTags S0 = joinTags S1) : S0 = S1 := by
  rw [← provTags_join S0 h0c h0, ← provTags_join S1 h1c h1, h]

theorem provMonotone (k : String) (ops : List MergeOp)
    (hname : ∀ o ∈ ops, (repoOf o.1).full_name = k) :
    ∀ (st : SearchState) (info : RepoInfo) (t : String),
      scopeFind st.repos k = some info → t ∈ provTags info.found_by →
      ∃ info', scopeFind (runMerges st ops).repos k = some info' ∧
        t ∈ provTags info'.found_by := by
  induction ops with
  | nil =>
    intro st info t h ht
    exact ⟨info, h, ht⟩
  | cons o rest ih =>
    intro st info t h ht
    obtain ⟨rd, fb, b⟩ := o
    have hk : (repoOf rd).full_name = k := hname _ (List.mem_cons_self _ _)
    rw [runMerges_cons]
    have hfind : scopeFind (addRepository st rd fb b).repos k =
        (if strContains info.found_by fb then some info
          else some { info with found_by := info.found_by ++ ", " ++ fb }) := by
      rw [addRepository_repos, hk, mergeScope_find_self st.repos k _ fb, h]
    by_cases hc : strContains info.found_by fb
    · rw [if_pos hc] at hfind
      exact ih (fun o ho => hname o (List.mem_cons_of_mem _ ho))
        (addRepository st rd fb b) info t hfind ht
    · rw [if_neg hc] at hfind
      refine ih (fun o ho => hname o (List.mem_cons_of_mem _ ho))
        (addRepository st rd fb b) _ t hfind ?_
      show t ∈ provTags (info.found_by ++ ", " ++ fb)
      rw [provTags_append_tag]
      exact List.mem_append_left _ ht

theorem unionLoop (k : String) (U : String → Prop)
    (hUc : ∀ t, U t → CleanChars t.data)
    (hUns : ∀ t u, U t → U u → InfixOf t.data u.data → t = u) :
    ∀ (ops : List MergeOp) (st : SearchState) (S : List String) (info : RepoInfo),
      (∀ o ∈ ops, (repoOf o.1).full_name = k ∧ U o.2.1) →
      scopeFind st.repos k = some info → info.found_by = joinTags S → S ≠ [] →
      (∀ s ∈ S, U s) →
      ∃ info' S', scopeFind (runMerges st ops).repos k = some info' ∧
        info'.found_by = joinTags S' ∧ S' ≠ [] ∧ (∀ s ∈ S', U s) ∧
        (∀ t, t ∈ S' ↔ t ∈ S ∨ t ∈ opTags ops) := by
  intro ops
  induction ops with
  | nil =>
    intro st S info _ hfind hrepr hne hSU
    exact ⟨info, S, hfind, hrepr, hne, hSU, fun t => by simp [opTags]⟩
  | cons o rest ih =>
    intro st S info hops hfind hrepr hne hSU
    obtain ⟨rd, fb, b⟩ := o
    have hk : (repoOf rd).full_name = k := (hops _ (List.mem_cons_self _ _)).1
    have hUfb : U fb := (hops _ (List.mem_cons_self _ _)).2
    rw [runMerges_cons]
    have hrest : ∀ o ∈ rest, (repoOf o.1).full_name = k ∧ U o.2.1 :=
      fun o ho => hops o (List.mem_cons_of_mem _ ho)
    have hiff : strContains info.found_by fb = true ↔ fb ∈ S := by
      rw [hrepr]
      exact containsJoin_iff fb S (fun s hs => hUc s (hSU s hs)) (hUc fb hUfb)
        (fun s hs hin => hUns fb s hUfb (hSU s hs) hin)
    have hfind' : scopeFind (addRepository st rd fb b).repos k =
        (if strContains info.found_by fb then some info
          else some { info with found_by := info.found_by ++ ", " ++ fb }) := by
      rw [addRepository_repos, hk, mergeScope_find_self st.repos k _ fb, hfind]
    by_cases hc : strContains info.found_by fb
    · rw [if_pos hc] at hfind'
      have hmem : fb ∈ S := hiff.mp hc
      obtain ⟨info', S', h1, h2, h3, h4, h5⟩ :=
        ih (addRepository st rd fb b) S info hrest hfind' hrepr hne hSU
      refine ⟨info', S', h1, h2, h3, h4, fun t => ?_⟩
      rw [h5 t]
      show t ∈ S ∨ t ∈ opTags rest ↔ t ∈ S ∨ t ∈ opTags ((rd, fb, b) :: rest)
      show t ∈ S ∨ t ∈ opTags rest ↔ t ∈ S ∨ t ∈ fb :: opTags rest
      constructor
      · rintro (h | h)
        · exact Or.inl h
        · exact Or.inr (List.mem_cons_of_mem _ h)
      · rintro (h | h)
        · exact Or.inl h
        · rcases List.mem_cons.mp h with rfl | h
          · exact Or.inl hmem
          · exact Or.inr h
    · rw [if_neg hc] at hfind'
      have hrepr' : ({ info with found_by := info.found_by ++ ", " ++ fb } :
          RepoInfo).found_by = joinTags (S ++ [fb]) := by
        show info.found_by ++ ", " ++ fb = joinTags (S ++ [fb])
        rw [hrepr, joinTags_snoc S fb hne]
      obtain ⟨info', S', h1, h2, h3, h4, h5⟩ :=
        ih (addRepository st rd fb b) (S ++ [fb]) _ hrest hfind' hrepr' (by simp)
          (by
            intro s hs
            rcases List.mem_append.mp hs with h | h
            · exact hSU s h
            · rw [List.mem_singleton.mp h]
              exact hUfb)
      refine ⟨info', S', h1, h2, h3, h4, fun t => ?_⟩
      rw [h5 t]
      show t ∈ S ++ [fb] ∨ t ∈ opTags rest ↔ t ∈ S ∨ t ∈ fb :: opTags rest
      constructor
      · rintro (h | h)
        · rcases List.mem_append.mp h with h | h
          · exact Or.inl h
          · exact Or.inr (List.mem_cons.mpr (Or.inl (List.mem_singleton.mp h)))
        · exact Or.inr (List.mem_cons_of_mem _ h)
      · rintro (h | h)
        · exact Or.inl (List.mem_append.mpr (Or.inl h))
        · rcases List.mem_cons.mp h with rfl | h
          · exact Or.inl (List.mem_append.mpr (Or.inr (List.mem_singleton.mpr rfl)))
          · exact Or.inr h

/-- Claim C2, as stated, is false at a concrete input: merging tag ab and
then tag a on the same fresh identity leaves the provenance set at just the
single tag ab, because a is a substring of the existing joined provenance
string and is skipped, so the final set is not the union of all tags
applied. -/
theorem c2_counterexample :
    scopeFind (runMerges ⟨[], []⟩
        [(.plain ⟨"k/r", "u", .absent⟩, "ab", true),
          (.plain ⟨"k/r", "u", .absent⟩, "a", true)]).repos "k/r" =
      some ⟨"u", some "No description", "ab"⟩ ∧
    "a" ∈ opTags [((.plain ⟨"k/r", "u", .absent⟩ : RepoData), "ab", true),
      (.plain ⟨"k/r", "u", .absent⟩, "a", true)] ∧
    "a" ∉ provTags "ab" := by
  refine ⟨rfl, by decide, by decide⟩

/-- Claim C2 (amended): for any sequence of merges on the same identity key,
the record's provenance set only grows (no tag it contained is ever lost);
and when the key starts absent and the applied tags are benign (nonempty, no
comma, not starting with a space) and pairwise substring-free, the final
provenance set is exactly the union of all tags applied.  In general a tag
that is a substring of the existing joined provenance string is skipped even
when it is not an element of the set, so the union can fail. -/
theorem c2_provenance_monotone_union (st : SearchState) (k : String)
    (ops : List MergeOp) (hname : ∀ o ∈ ops, (repoOf o.1).full_name = k) :
    (∀ info t, scopeFind st.repos k = some info → t ∈ provTags info.found_by →
      ∃ info', scopeFind (runMerges st ops).repos k = some info' ∧
        t ∈ provTags info'.found_by) ∧
    (scopeFind st.repos k = none →
      (∀ t ∈ opTags ops, CleanChars t.data) →
      (∀ t ∈ opTags ops, ∀ u ∈ opTags ops, InfixOf t.data u.data → t = u) →
      ∀ o0 rest, ops = o0 :: rest →
      ∃ info', scopeFind (runMerges st ops).repos k = some info' ∧
        (∀ t, t ∈ provTags info'.found_by ↔ t ∈ opTags ops)) := by
  constructor
  · intro info t h ht
    exact provMonotone k ops hname st info t h ht
  · intro hfresh hclean hns o0 rest hops
    subst hops
    obtain ⟨rd, fb, b⟩ := o0
    have hk : (repoOf rd).full_name = k := hname _ (List.mem_cons_self _ _)
    have hfb : fb ∈ opTags ((rd, fb, b) :: rest) := List.mem_cons_self _ _
    have hfind1 : scopeFind (addRepository st rd fb b).repos k =
        some ⟨(repoOf rd).html_url, getDesc (repoOf rd).description, fb⟩ := by
      rw [addRepository_repos, hk, mergeScope_fresh _ _ _ _ hfresh]
      simp [scopeFind]
    have hU : ∀ o ∈ rest, (repoOf o.1).full_name = k ∧ o.2.1 ∈
        opTags ((rd, fb, b) :: rest) := by
      intro o ho
      refine ⟨hname o (List.mem_cons_of_mem _ ho), ?_⟩
      show o.2.1 ∈ fb :: opTags rest
      exact List.mem_cons_of_mem _ (List.mem_map_of_mem _ ho)
    obtain ⟨info', S', h1, h2, h3, h4, h5⟩ :=
      unionLoop k (fun t => t ∈ opTags ((rd, fb, b) :: rest))
        (fun t ht => hclean t ht) (fun t u ht hu hin => hns t ht u hu hin)
        rest (addRepository st rd fb b) [fb] _ hU hfind1 rfl (by simp)
        (by
          intro s hs
          rw [List.mem_singleton.mp hs]
          exact hfb)
    rw [runMerges_cons]
    refine ⟨info', h1, fun t => ?_⟩
    rw [h2, provTags_join S' (fun s hs => hclean s (h4 s hs)) h3, h5 t]
    show t ∈ [fb] ∨ t ∈ opTags rest ↔ t ∈ fb :: opTags rest
    constructor
    · rintro (h | h)
      · rw [List.mem_singleton.mp h]
        exact List.mem_cons_self _ _
      · exact List.mem_cons_of_mem _ h
    · intro h
      rcases List.mem_cons.mp h with rfl | h
      · exact Or.inl (List.mem_singleton.mpr rfl)
      · exact Or.inr h

/-- Witness for the amended claim C2 at a concrete input: two distinct
substring-free tags t1 and t2 merged on a fresh key yield a provenance set
holding exactly both. -/
theorem c2_provenance_monotone_union_witness :
    ∃ info', scopeFind (runMerges ⟨[], []⟩
        [(.plain ⟨"k/r", "u", .absent⟩, "t1", true),
          (.plain ⟨"k/r", "u", .absent⟩, "t2", true)]).repos "k/r" = some info' ∧
      (∀ t, t ∈ provTags info'.found_by ↔
        t ∈ opTags [((.plain ⟨"k/r", "u", .absent⟩ : RepoData), "t1", true),
          (.plain ⟨"k/r", "u", .absent⟩, "t2", true)]) :=
  (c2_provenance_monotone_union ⟨[], []⟩ "k/r"
      [(.plain ⟨"k/r", "u", .absent⟩, "t1", true),
        (.plain ⟨"k/r", "u", .absent⟩, "t2", true)]
      (by decide)).2 rfl (by decide)
    (by
      intro t ht u hu hin
      fin_cases ht <;> fin_cases hu <;>
        first
          | rfl
          | exact absurd ((containsChars_iff _ _).mpr hin) (by decide))
    _ _ rfl

theorem mergeRepr (U : String → Prop)
    (hUc : ∀ t, U t → CleanChars t.data)
    (hUns : ∀ t u, U t → U u → InfixOf t.data u.data → t = u)
    (sc : Scope) (k0 : String) (info0 : RepoInfo) (fb : String)
    (hUfb : U fb) (hinfo : info0.found_by = fb)
    (hsc : ∀ k i, scopeFind sc k = some i → ∃ S, ReprWith U i S) :
    (∃ i' S', scopeFind (mergeScope sc k0 info0 fb) k0 = some i' ∧ ReprWith U i' S' ∧
      fb ∈ S' ∧
      ∀ S0 i0, scopeFind sc k0 = some i0 → ReprWith U i0 S0 → ∀ t, t ∈ S0 → t ∈ S') ∧
    (∀ k i, scopeFind (mergeScope sc k0 info0 fb) k = some i → ∃ S, ReprWith U i S) := by
  cases h0 : scopeFind sc k0 with
  | none =>
    have hf := mergeScope_fresh sc k0 info0 fb h0
    have hrw : ReprWith U info0 [fb] := by
      refine ⟨by simp, ?_, ?_⟩
      · intro s hs
        rw [List.mem_singleton.mp hs]
        exact hUfb
      · rw [hinfo]
        rfl
    constructor
    · refine ⟨info0, [fb], ?_, hrw, List.mem_singleton.mpr rfl, ?_⟩
      · rw [hf]
        simp [scopeFind]
      · intro S0 i0 hi0
        exact absurd hi0 (by simp)
    · intro k i hi
      rw [hf] at hi
      by_cases hk : k0 = k
      · rw [show scopeFind ((k0, info0) :: sc) k = if k0 = k then some info0
            else scopeFind sc k from rfl, if_pos hk] at hi
        injection hi with hi
        exact hi ▸ ⟨[fb], hrw⟩
      · rw [show scopeFind ((k0, info0) :: sc) k = if k0 = k then some info0
            else scopeFind sc k from rfl, if_neg hk] at hi
        exact hsc k i hi
  | some old =>
    obtain ⟨Sg, hSgne, hSgU, hSgfb⟩ := hsc k0 old h0
    have hiff : strContains old.found_by fb = true ↔ fb ∈ Sg := by
      rw [hSgfb]
      exact containsJoin_iff fb Sg (fun s hs => hUc s (hSgU s hs)) (hUc fb hUfb)
        (fun s hs h => hUns fb s hUfb (hSgU s hs) h)
    have hSext : ∀ S0 i0, some old = some i0 → ReprWith U i0 S0 → S0 = Sg := by
      intro S0 i0 hi0 hr0
      injection hi0 with hi0
      subst hi0
      exact joinTags_inj S0 Sg (fun s hs => hUc s (hr0.2.1 s hs))
        (fun s hs => hUc s (hSgU s hs)) hr0.1 hSgne (hr0.2.2 ▸ hSgfb)
    by_cases hb : strContains old.found_by fb
    · have heq := mergeScope_contains_eq sc k0 info0 fb old h0 hb
      rw [heq]
      refine ⟨⟨old, Sg, h0, ⟨hSgne, hSgU, hSgfb⟩, hiff.mp hb, ?_⟩, hsc⟩
      intro S0 i0 hi0 hr0 t ht
      rw [hSext S0 i0 hi0 hr0] at ht
      exact ht
    · have hupd : mergeScope sc k0 info0 fb =
          updateScope sc k0 { old with found_by := old.found_by ++ ", " ++ fb } := by
        unfold mergeScope
        rw [h0]
        exact if_neg hb
      have hnew : ReprWith U { old with found_by := old.found_by ++ ", " ++ fb }
          (Sg ++ [fb]) := by
        refine ⟨by simp, ?_, ?_⟩
        · intro s hs
          rcases List.mem_append.mp hs with h | h
          · exact hSgU s h
          · rw [List.mem_singleton.mp h]
            exact hUfb
        · show old.found_by ++ ", " ++ fb = joinTags (Sg ++ [fb])
          rw [hSgfb, joinTags_snoc Sg fb hSgne]
      constructor
      · refine ⟨_, Sg ++ [fb], ?_, hnew, ?_, ?_⟩
        · rw [hupd, scopeFind_update_self, h0]
          rfl
        · exact List.mem_append.mpr (Or.inr (List.mem_singleton.mpr rfl))
        · intro S0 i0 hi0 hr0 t ht
          rw [hSext S0 i0 hi0 hr0] at ht
          exact List.mem_append.mpr (Or.inl ht)
      · intro k i hi
        by_cases hk : k = k0
        · subst hk
          rw [hupd, scopeFind_update_self, h0] at hi
          injection hi with hi
          exact hi ▸ ⟨Sg ++ [fb], hnew⟩
        · rw [hupd, scopeFind_update_ne sc k0 k _ hk] at hi
          exact hsc k i hi

theorem invStep (U : String → Prop)
    (hUc : ∀ t, U t → CleanChars t.data)
    (hUns : ∀ t u, U t → U u → InfixOf t.data u.data → t = u)
    (st : SearchState) (e : RunEvent) (hinv : StateInv U st)
    (he : ∀ rd fb b, e = .merge rd fb b → U fb) :
    StateInv U (stepEvent st e) := by
  cases e with
  | clearBatch =>
    refine ⟨hinv.1, ?_⟩
    intro k i hi
    exact absurd hi (by simp [stepEvent, scopeFind])
  | merge rd fb b =>
    have hUfb : U fb := he rd fb b rfl
    have hg := mergeRepr U hUc hUns st.repos (repoOf rd).full_name
      ⟨(repoOf rd).html_url, getDesc (repoOf rd).description, fb⟩ fb hUfb rfl hinv.1
    obtain ⟨ig, Sgnew, hgfind, hgrepr, hgfb, hgext⟩ := hg.1
    have hrepos : (stepEvent st (.merge rd fb b)).repos =
        mergeScope st.repos (repoOf rd).full_name
          ⟨(repoOf rd).html_url, getDesc (repoOf rd).description, fb⟩ fb := rfl
    constructor
    · intro k i hi
      rw [hrepos] at hi
      exact hg.2 k i hi
    · intro k i hi
      have hglobal : ∀ k' i' S', k' ≠ (repoOf rd).full_name →
          scopeFind st.repos k' = some i' → ReprWith U i' S' →
          ∃ i'' S'', scopeFind (stepEvent st (.merge rd fb b)).repos k' = some i'' ∧
            ReprWith U i'' S'' ∧ ∀ t, t ∈ S' → t ∈ S'' := by
        intro k' i' S' hk' hf' hr'
        refine ⟨i', S', ?_, hr', fun t ht => ht⟩
        rw [hrepos, mergeScope_find_ne _ _ _ _ _ hk']
        exact hf'
      have hglobal0 : ∀ i' S', scopeFind st.repos (repoOf rd).full_name = some i' →
          ReprWith U i' S' →
          ∃ i'' S'', scopeFind (stepEvent st (.merge rd fb b)).repos
              (repoOf rd).full_name = some i'' ∧
            ReprWith U i'' S'' ∧ (∀ t, t ∈ S' → t ∈ S'') ∧ fb ∈ S'' := by
        intro i' S' hf' hr'
        exact ⟨ig, Sgnew, hrepos ▸ hgfind, hgrepr, hgext S' i' hf' hr', hgfb⟩
      cases b with
      | false =>
        have hi' : scopeFind st.current_search_repos k = some i := hi
        obtain ⟨S, i', S', hrep, hfind', hrep', hsub⟩ := hinv.2 k i hi'
        by_cases hk : k = (repoOf rd).full_name
        · subst hk
          obtain ⟨i'', S'', hf'', hr'', hext'', _⟩ := hglobal0 i' S' hfind' hrep'
          exact ⟨S, i'', S'', hrep, hf'', hr'', fun t ht => hext'' t (hsub t ht)⟩
        · obtain ⟨i'', S'', hf'', hr'', hext''⟩ := hglobal k i' S' hk hfind' hrep'
          exact ⟨S, i'', S'', hrep, hf'', hr'', fun t ht => hext'' t (hsub t ht)⟩
      | true =>
        have hcur : (stepEvent st (.merge rd fb true)).current_search_repos =
            mergeScope st.current_search_repos (repoOf rd).full_name
              ⟨(repoOf rd).html_url, getDesc (repoOf rd).description, fb⟩ fb := rfl
        rw [hcur] at hi
        by_cases hk : k = (repoOf rd).full_name
        · rw [hk] at hi
          rw [hk]
          cases hc0 : scopeFind st.current_search_repos (repoOf rd).full_name with
          | none =>
            rw [mergeScope_fresh _ _ _ _ hc0] at hi
            rw [show scopeFind (((repoOf rd).full_name, (⟨(repoOf rd).html_url,
                getDesc (repoOf rd).description, fb⟩ : RepoInfo)) ::
                st.current_search_repos) (repoOf rd).full_name =
                  if (repoOf rd).full_name = (repoOf rd).full_name then
                    some ⟨(repoOf rd).html_url, getDesc (repoOf rd).description, fb⟩
                  else scopeFind st.current_search_repos (repoOf rd).full_name from rfl,
              if_pos rfl] at hi
            injection hi with hi
            refine ⟨[fb], ig, Sgnew, ?_, hrepos ▸ hgfind, hgrepr, ?_⟩
            · refine ⟨by simp, ?_, ?_⟩
              · intro s hs
                rw [List.mem_singleton.mp hs]
                exact hUfb
              · rw [← hi]
                rfl
            · intro t ht
              rw [List.mem_singleton.mp ht]
              exact hgfb
          | some oldc =>
            obtain ⟨Sc, i', S', hrepc, hfind', hrep', hsub⟩ :=
              hinv.2 (repoOf rd).full_name oldc hc0
            obtain ⟨i'', S'', hf'', hr'', hext'', hfb''⟩ := hglobal0 i' S' hfind' hrep'
            by_cases hbc : strContains oldc.found_by fb
            · rw [mergeScope_contains_eq _ _ _ _ oldc hc0 hbc, hc0] at hi
              injection hi with hi
              subst hi
              exact ⟨Sc, i'', S'', hrepc, hf'', hr'', fun t ht => hext'' t (hsub t ht)⟩
            · have hupd : mergeScope st.current_search_repos (repoOf rd).full_name
                  ⟨(repoOf rd).html_url, getDesc (repoOf rd).description, fb⟩ fb =
                  updateScope st.current_search_repos (repoOf rd).full_name
                    { oldc with found_by := oldc.found_by ++ ", " ++ fb } := by
                unfold mergeScope
                rw [hc0]
                exact if_neg hbc
              rw [hupd, scopeFind_update_self, hc0] at hi
              injection hi with hi
              refine ⟨Sc ++ [fb], i'', S'', ?_, hf'', hr'', ?_⟩
              · refine ⟨by simp, ?_, ?_⟩
                · intro s hs
                  rcases List.mem_append.mp hs with h | h
                  · exact hrepc.2.1 s h
                  · rw [List.mem_singleton.mp h]
                    exact hUfb
                · rw [← hi]
                  show oldc.found_by ++ ", " ++ fb = joinTags (Sc ++ [fb])
                  rw [hrepc.2.2, joinTags_snoc Sc fb hrepc.1]
              · intro t ht
                rcases List.mem_append.mp ht with h | h
                · exact hext'' t (hsub t h)
                · rw [List.mem_singleton.mp h]
                  exact hfb''
          -- end some oldc
        · rw [mergeScope_find_ne _ _ _ _ _ hk] at hi
          obtain ⟨S, i', S', hrep, hfind', hrep', hsub⟩ := hinv.2 k i hi
          obtain ⟨i'', S'', hf'', hr'', hext''⟩ := hglobal k i' S' hk hfind' hrep'
          exact ⟨S, i'', S'', hrep, hf'', hr'', fun t ht => hext'' t (hsub t ht)⟩

theorem invRun (U : String → Prop)
    (hUc : ∀ t, U t → CleanChars t.data)
    (hUns : ∀ t u, U t → U u → InfixOf t.data u.data → t = u) :
    ∀ (evs : List RunEvent) (st : SearchState), StateInv U st →
      (∀ e ∈ evs, ∀ rd fb b, e = RunEvent.merge rd fb b → U fb) →
      StateInv U (evs.foldl stepEvent st) := by
  intro evs
  induction evs with
  | nil =>
    intro st h _
    exact h
  | cons e rest ih =>
    intro st h hall
    exact ih (stepEvent st e)
      (invStep U hUc hUns st e h (hall e (List.mem_cons_self _ _)))
      (fun e' he' => hall e' (List.mem_cons_of_mem _ he'))

/-- Claim C4, as stated, is false at a concrete input: merge tag xay, clear
the batch scope, then merge tag a on the same key — a is a substring of the
global record's joined provenance xay, so the global record is not updated,
while the fresh batch record's provenance set is the singleton a, which the
global provenance set does not contain. -/
theorem c4_counterexample :
    scopeFind (runEvents [.merge (.plain ⟨"k/r", "u", .absent⟩) "xay" true, .clearBatch,
        .merge (.plain ⟨"k/r", "u", .absent⟩) "a" true]).current_search_repos "k/r" =
      some ⟨"u", some "No description", "a"⟩ ∧
    scopeFind (runEvents [.merge (.plain ⟨"k/r", "u", .absent⟩) "xay" true, .clearBatch,
        .merge (.plain ⟨"k/r", "u", .absent⟩) "a" true]).repos "k/r" =
      some ⟨"u", some "No description", "xay"⟩ ∧
    "a" ∈ provTags "a" ∧ "a" ∉ provTags "xay" := by
  refine ⟨rfl, rfl, by decide, by decide⟩

/-- Claim C4 (amended): at every point of a run (any interleaving of merges
and batch clears), when the run's merge tags are benign (nonempty, no comma,
not starting with a space) and pairwise substring-free, every identity key
present in the batch scope is also present in the global scope, and the
global record's provenance set contains the batch record's provenance set.
Without the substring-freedom proviso a batch tag that is a proper substring
of the global joined provenance can be missing from the global set. -/
theorem c4_scope_superset (evs : List RunEvent)
    (hclean : ∀ t ∈ evTags evs, CleanChars t.data)
    (hns : ∀ t ∈ evTags evs, ∀ u ∈ evTags evs, InfixOf t.data u.data → t = u) :
    ∀ k i, scopeFind (runEvents evs).current_search_repos k = some i →
      ∃ i', scopeFind (runEvents evs).repos k = some i' ∧
        ∀ t, t ∈ provTags i.found_by → t ∈ provTags i'.found_by := by
  have hinv := invRun (fun t => t ∈ evTags evs) (fun t ht => hclean t ht)
    (fun t u ht hu h => hns t ht u hu h) evs ⟨[], []⟩
    ⟨fun k i h => absurd h (by simp [scopeFind]),
      fun k i h => absurd h (by simp [scopeFind])⟩
    (by
      intro e he rd fb b heq
      subst heq
      exact List.mem_filterMap.mpr ⟨RunEvent.merge rd fb b, he, rfl⟩)
  intro k i hi
  obtain ⟨S, i', S', ⟨hSne, hSU, hSj⟩, hfind', ⟨hS'ne, hS'U, hS'j⟩, hsub⟩ :=
    hinv.2 k i hi
  refine ⟨i', hfind', fun t ht => ?_⟩
  rw [hSj, provTags_join S (fun s hs => hclean s (hSU s hs)) hSne] at ht
  rw [hS'j, provTags_join S' (fun s hs => hclean s (hS'U s hs)) hS'ne]
  exact hsub t ht

/-- Witness for the amended claim C4 at a concrete input: merge t1, clear
the batch, merge t2 — the batch record's set is contained in the global
record's set. -/
theorem c4_scope_superset_witness :
    ∃ i', scopeFind (runEvents [.merge (.plain ⟨"k/r", "u", .absent⟩) "t1" true,
        .clearBatch, .merge (.plain ⟨"k/r", "u", .absent⟩) "t2" true]).repos "k/r" =
      some i' ∧
      ∀ t, t ∈ provTags (RepoInfo.mk "u" (some "No description") "t2").found_by →
        t ∈ provTags i'.found_by :=
  c4_scope_superset
    [.merge (.plain ⟨"k/r", "u", .absent⟩) "t1" true, .clearBatch,
      .merge (.plain ⟨"k/r", "u", .absent⟩) "t2" true]
    (by decide)
    (by
      intro t ht u hu hin
      fin_cases ht <;> fin_cases hu <;>
        first
          | rfl
          | exact absurd ((containsChars_iff _ _).mpr hin) (by decide))
    "k/r" ⟨"u", some "No description", "t2"⟩ (by rfl)

end RepoSearch
